import Mathlib

/-!
Verification of the `bimap` repository: a bidirectional map built from two
intrusive binary-search-tree indexes sharing one set of pair records
(`src/bimap.h`, `src/intrusive_tree.h`).

The trees are embedded as functional binary trees; tree nodes are the
externally owned records; the sentinel / `end` position is modelled by
`none` in an `Option`-valued position.  Comparators are strict total
orders, modelled by a `LinearOrder` on the projected key type (`src`
default is `std::less`).  Pointer-level operations living in the files
`intrusive_node.h` / `bimap_details.h` (absent from the sources) are
modelled from the specification and marked as such.
-/

/-- Decidable equality of `Except` results, used to evaluate the model's
`at_left` / `at_right` outcomes on concrete inputs. -/
instance {ε α : Type} [DecidableEq ε] [DecidableEq α] : DecidableEq (Except ε α) :=
  fun x y =>
  match x, y with
  | .ok a, .ok b =>
    if h : a = b then .isTrue (by rw [h]) else .isFalse (by simp [h])
  | .error a, .error b =>
    if h : a = b then .isTrue (by rw [h]) else .isFalse (by simp [h])
  | .ok _, .error _ => .isFalse (by simp)
  | .error _, .ok _ => .isFalse (by simp)

namespace BimapModel

/-- The node structure of `intrusive::intrusive_tree`: an unbalanced binary
search tree of externally owned records of type `α`; `leaf` is an empty
child slot (`nullptr`). -/
inductive ITree (α : Type) where
  | leaf
  | node (l : ITree α) (v : α) (r : ITree α)
deriving DecidableEq, Repr

namespace ITree

variable {α : Type} {K : Type}

/-- In-order traversal of the tree: the sequence an iterator walk from
`begin()` to `end()` visits. -/
def inorder : ITree α → List α
  | .leaf => []
  | .node l v r => inorder l ++ v :: inorder r

/-- Number of nodes linked into the tree (`intrusive_tree::size`'s `n_node`
counter, expressed structurally). -/
def size : ITree α → Nat
  | .leaf => 0
  | .node l _ r => size l + size r + 1

/-- The `find_result` enumeration of `intrusive_tree::find` (private):
whether the descent stopped on an equivalent key, or at a node where the
searched key would attach as right / left child. -/
inductive FindRes where
  | there_is
  | add_right
  | add_left
deriving DecidableEq, Repr

/-- Mirrors the private `intrusive_tree::find(data, res)` descent loop.
Returns the stopping node `cur` together with the `find_result`; the
result `(add_left, none)` is the empty-tree case, where the C++ code
returns the sentinel with `res = ADD_LEFT`. -/
def findLoop [LinearOrder K] (p : α → K) (k : K) : ITree α → FindRes × Option α
  | .leaf => (.add_left, none)
  | .node l v r =>
    if p v < k then
      match r with
      | .leaf => (.add_right, some v)
      | .node rl rv rr => findLoop p k (.node rl rv rr)
    else if k < p v then
      match l with
      | .leaf => (.add_left, some v)
      | .node ll lv lr => findLoop p k (.node ll lv lr)
    else (.there_is, some v)

/-- Mirrors the public `intrusive_tree::find(x)`: the stopping node when the
descent reports `THERE_IS`, otherwise `end()` (modelled as `none`). -/
def find [LinearOrder K] (p : α → K) (k : K) (t : ITree α) : Option α :=
  match findLoop p k t with
  | (.there_is, c) => c
  | _ => none

/-- Modelled from the spec: `node::next()` of `intrusive_node.h` (absent from
the sources) — the in-order successor, i.e. the element following the first
occurrence of `c` in the in-order sequence; `none` is the sentinel. -/
def nextInList [DecidableEq α] : List α → α → Option α
  | [], _ => none
  | a :: rest, c => if a = c then rest.head? else nextInList rest c

/-- In-order successor of the record `c` inside tree `t` (see `nextInList`). -/
def succAfter [DecidableEq α] (t : ITree α) (c : α) : Option α :=
  nextInList (inorder t) c

/-- Mirrors `intrusive_tree::find_next(x)`: the stopping node of the descent
for `THERE_IS` / `ADD_LEFT`, and its in-order successor (`cur->next()`) for
`ADD_RIGHT`.  On an empty tree the descent yields `(add_left, none)`, i.e.
the sentinel / `end()`. -/
def find_next [LinearOrder K] [DecidableEq α] (p : α → K) (k : K) (t : ITree α) :
    Option α :=
  match findLoop p k t with
  | (.add_right, some c) => succAfter t c
  | (_, c) => c

/-- Mirrors `intrusive_tree::insert(data)`: one descent deciding between
`THERE_IS` (duplicate: no mutation, returns `end`, modelled `none`) and
attaching `x` as the left / right child of the stopping node `cur`.  The
pointer code performs the descent via `find` and then writes through `cur`;
here descent and attachment are fused into one structural recursion making
the same comparisons in the same order. -/
def insert [LinearOrder K] (p : α → K) (x : α) : ITree α → Option (ITree α)
  | .leaf => some (.node .leaf x .leaf)
  | .node l v r =>
    if p v < p x then
      match r with
      | .leaf => some (.node l v (.node .leaf x .leaf))
      | .node rl rv rr =>
        (insert p x (.node rl rv rr)).map (fun r2 => .node l v r2)
    else if p x < p v then
      match l with
      | .leaf => some (.node (.node .leaf x .leaf) v r)
      | .node ll lv lr =>
        (insert p x (.node ll lv lr)).map (fun l2 => .node l2 v r)
    else none

/-- Helper of `unlinkKey`: detaches the maximum record of the nonempty tree
`node l v r`, returning the remaining tree and that record. -/
def popMax : ITree α → α → ITree α → ITree α × α
  | l, v, .leaf => (l, v)
  | l, v, .node rl rv rr =>
    let res := popMax rl rv rr
    (.node l v res.1, res.2)

/-- Modelled from the spec: `node::unlink()` of `intrusive_node.h` (absent
from the sources) — standard three-case BST deletion of the node whose key
is equivalent to `k`, splicing the in-order predecessor into a two-child
slot; the tree is unchanged when no key is equivalent to `k`. -/
def unlinkKey [LinearOrder K] (p : α → K) (k : K) : ITree α → ITree α
  | .leaf => .leaf
  | .node l v r =>
    if p v < k then .node l v (unlinkKey p k r)
    else if k < p v then .node (unlinkKey p k l) v r
    else
      match l with
      | .leaf => r
      | .node ll lv lr =>
        let res := popMax ll lv lr
        .node res.1 res.2 r

/-- Mirrors `intrusive_tree::remove(T& data)`: a descent; on `THERE_IS` it
returns `end()` (first component `none`) leaving the tree untouched;
otherwise it unlinks the stopping node `cur` and returns `cur->next()`.
The outer `Option` is `none` exactly for the empty tree, where the C++
code would unlink the sentinel (undefined behavior). -/
def remove [LinearOrder K] [DecidableEq α] (p : α → K) (x : α) (t : ITree α) :
    Option (Option α × ITree α) :=
  match t with
  | .leaf => none
  | .node _ _ _ =>
    match findLoop p (p x) t with
    | (.there_is, _) => some (none, t)
    | (_, some c) => some (succAfter t c, unlinkKey p (p c) t)
    | (_, none) => none

/-- All projected keys in the tree satisfy the decidable predicate `q`. -/
def allKeys (p : α → K) (q : K → Bool) : ITree α → Bool
  | .leaf => true
  | .node l v r => q (p v) && allKeys p q l && allKeys p q r

/-- The binary-search-tree invariant under the projection `p`: every key in a
left subtree is strictly below the node's key, every key in a right subtree
strictly above, recursively. -/
def isBST [LinearOrder K] (p : α → K) : ITree α → Bool
  | .leaf => true
  | .node l v r =>
    allKeys p (fun kk => decide (kk < p v)) l &&
    allKeys p (fun kk => decide (p v < kk)) r &&
    isBST p l && isBST p r

end ITree

/-- The state of a `bimap<Left, Right, CompareLeft, CompareRight>`: a left
index (tree of pair records keyed by the `left` member), a right index
(same records keyed by the `right` member) and the live-pair counter
`n_node`.  A pair record is a value of `L × R`. -/
structure Bimap (L R : Type) where
  left_tree : ITree (L × R)
  right_tree : ITree (L × R)
  n_node : Nat
deriving DecidableEq, Repr

/-- A left-side iterator: `none` is `end_left()` (the left sentinel), `some c`
a position on the live record `c`. -/
structure LeftPos (L R : Type) where
  it : Option (L × R)
deriving DecidableEq, Repr

/-- A right-side iterator: `none` is `end_right()`, `some c` a position on the
live record `c`. -/
structure RightPos (L R : Type) where
  it : Option (L × R)
deriving DecidableEq, Repr

/-- Mirrors `base_iterator::flip` on a left iterator: a record position is
reinterpreted as the same record's node in the right index; the end
position follows the sentinel cross-link installed by `link_sentinel`,
yielding `end_right()`. -/
def LeftPos.flip {L R : Type} (q : LeftPos L R) : RightPos L R := ⟨q.it⟩

/-- Mirrors `base_iterator::flip` on a right iterator (see `LeftPos.flip`). -/
def RightPos.flip {L R : Type} (q : RightPos L R) : LeftPos L R := ⟨q.it⟩

/-- The error thrown by `at_left` / `at_right` (`std::out_of_range`). -/
inductive BimapErr where
  | out_of_range
deriving DecidableEq, Repr

namespace Bimap

variable {L R : Type} [LinearOrder L] [LinearOrder R]

/-- Mirrors the default constructor: both indexes empty, no live pairs. -/
def empty : Bimap L R := ⟨.leaf, .leaf, 0⟩

/-- Mirrors `bimap::end_left()`. -/
def end_left (_ : Bimap L R) : LeftPos L R := ⟨none⟩

/-- Mirrors `bimap::end_right()`. -/
def end_right (_ : Bimap L R) : RightPos L R := ⟨none⟩

/-- Mirrors `bimap::size()`. -/
def size (b : Bimap L R) : Nat := b.n_node

/-- Mirrors `bimap::find_left`: delegation to the left index's `find`. -/
def find_left (b : Bimap L R) (k : L) : Option (L × R) :=
  ITree.find Prod.fst k b.left_tree

/-- Mirrors `bimap::find_right`: delegation to the right index's `find`. -/
def find_right (b : Bimap L R) (k : R) : Option (L × R) :=
  ITree.find Prod.snd k b.right_tree

/-- Mirrors `bimap::add` (the common body of the four `insert` overloads):
if neither `l` is in the left index nor `r` in the right index, a new pair
record is linked into both indexes, the live-pair counter is incremented
and its left position returned; otherwise nothing changes and `end_left()`
(`none`) is returned.  The uniqueness pre-check on both sides makes both
tree insertions succeed, so the `getD` fallbacks are unreachable. -/
def insert (b : Bimap L R) (l : L) (r : R) : Option (L × R) × Bimap L R :=
  match b.find_left l, b.find_right r with
  | none, none =>
    (some (l, r),
      ⟨(ITree.insert Prod.fst (l, r) b.left_tree).getD b.left_tree,
       (ITree.insert Prod.snd (l, r) b.right_tree).getD b.right_tree,
       b.n_node + 1⟩)
  | _, _ => (none, b)

/-- Mirrors `bimap::erase_left(iterator)` at the record level: `delete`-ing
the pair record unlinks it from both indexes (the node destructors live in
`bimap_details.h` / `intrusive_node.h`, absent from the sources and
modelled from the spec as BST deletion), and the live-pair counter is
decremented. -/
def eraseRecord (b : Bimap L R) (c : L × R) : Bimap L R :=
  ⟨ITree.unlinkKey Prod.fst c.1 b.left_tree,
   ITree.unlinkKey Prod.snd c.2 b.right_tree,
   b.n_node - 1⟩

/-- Mirrors `bimap::erase_left(left const&)`: look up, erase when found,
report whether a pair was removed. -/
def erase_left (b : Bimap L R) (k : L) : Bool × Bimap L R :=
  match b.find_left k with
  | some c => (true, b.eraseRecord c)
  | none => (false, b)

/-- Mirrors `bimap::erase_right(right const&)`. -/
def erase_right (b : Bimap L R) (k : R) : Bool × Bimap L R :=
  match b.find_right k with
  | some c => (true, b.eraseRecord c)
  | none => (false, b)

/-- Mirrors `bimap::at_left`: `std::out_of_range` when the key is absent,
otherwise the flipped position's value, i.e. the record's right member. -/
def at_left (b : Bimap L R) (k : L) : Except BimapErr R :=
  match b.find_left k with
  | none => .error .out_of_range
  | some c => .ok c.2

/-- Mirrors `bimap::at_right`. -/
def at_right (b : Bimap L R) (k : R) : Except BimapErr L :=
  match b.find_right k with
  | none => .error .out_of_range
  | some c => .ok c.1

/-- Mirrors `bimap::at_left_or_default`: when `key` is found, its paired
right value with no mutation; otherwise the current holder of the
default-constructed right value (if any) is erased, `(key, default)` is
inserted, and the new record's right value is returned.  The `getD`
fallback models the unconditional dereference of the `insert` result,
which the preceding erase makes always valid. -/
def at_left_or_default [Inhabited R] (b : Bimap L R) (k : L) : R × Bimap L R :=
  match b.find_left k with
  | some c => (c.2, b)
  | none =>
    let b1 : Bimap L R :=
      match b.find_right (default : R) with
      | some c => b.eraseRecord c
      | none => b
    let res := b1.insert k (default : R)
    ((res.1.getD (k, default)).2, res.2)

/-- Mirrors `bimap::at_right_or_default`. -/
def at_right_or_default [Inhabited L] (b : Bimap L R) (k : R) : L × Bimap L R :=
  match b.find_right k with
  | some c => (c.1, b)
  | none =>
    let b1 : Bimap L R :=
      match b.find_left (default : L) with
      | some c => b.eraseRecord c
      | none => b
    let res := b1.insert (default : L) k
    ((res.1.getD (default, k)).1, res.2)

/-- Mirrors the move constructor `bimap(bimap&&)`: the new container is
initialised with fresh empty trees and `other.n_node`, then swaps trees
with `other`.  The source keeps its own `n_node` member — the constructor
never resets it. -/
def moveCtor (b : Bimap L R) : Bimap L R × Bimap L R :=
  (⟨b.left_tree, b.right_tree, b.n_node⟩, ⟨.leaf, .leaf, b.n_node⟩)

/-- Mirrors the copy constructor `bimap(bimap const&)`: a freshly
constructed empty container into which every source pair is re-inserted in
left order via `insert(*it, *it.flip())`. -/
def copyCtor (b : Bimap L R) : Bimap L R :=
  (ITree.inorder b.left_tree).foldl (fun acc c => (acc.insert c.1 c.2).2) empty

/-- Mirrors `operator==`: equal sizes, then a simultaneous left-order walk
comparing left keys (`eq_left`) and flipped right values (`eq_right`) by
two-sided comparator equivalence, which for a strict total order is plain
equality. -/
def beq (a b : Bimap L R) : Bool :=
  a.size == b.size &&
  ((ITree.inorder a.left_tree).zip (ITree.inorder b.left_tree)).all
    (fun q => q.1.1 == q.2.1 && q.1.2 == q.2.2)

/-- The debug assertions inside `bimap::empty()`:
`left_tree.empty() == right_tree.empty()` and
`left_tree.empty() == (n_node == 0)`. -/
def emptyAsserts (b : Bimap L R) : Bool :=
  (decide (b.left_tree = ITree.leaf) == decide (b.right_tree = ITree.leaf)) &&
  (decide (b.left_tree = ITree.leaf) == (b.n_node == 0))

/-- Mirrors `bimap::empty()` (its returned value). -/
def is_empty (b : Bimap L R) : Bool := b.n_node == 0

/-- A mutating operation of the public interface, for reachability
statements: insertion or erase-by-key on either side. -/
inductive Op (L R : Type) where
  | ins (l : L) (r : R)
  | delL (k : L)
  | delR (k : R)

/-- Applies one operation to a bimap state. -/
def applyOp (b : Bimap L R) : Op L R → Bimap L R
  | .ins l r => (b.insert l r).2
  | .delL k => (b.erase_left k).2
  | .delR k => (b.erase_right k).2

/-- The state reached from the empty bimap by a sequence of operations. -/
def runOps (ops : List (Op L R)) : Bimap L R := ops.foldl applyOp empty

end Bimap

/-- The representation invariant every reachable `bimap` state satisfies:
both indexes are binary search trees under their projections, both hold
the same collection of pair records, and the live-pair counter equals the
record count. -/
def Bimap.Inv {L R : Type} [LinearOrder L] [LinearOrder R] (b : Bimap L R) : Prop :=
  ITree.isBST Prod.fst b.left_tree = true ∧
  ITree.isBST Prod.snd b.right_tree = true ∧
  List.Perm (ITree.inorder b.right_tree) (ITree.inorder b.left_tree) ∧
  b.n_node = (ITree.inorder b.left_tree).length ∧
  b.n_node = (ITree.inorder b.right_tree).length

/-- The invariant is decidable, so it can be checked on concrete states. -/
instance {L R : Type} [LinearOrder L] [LinearOrder R] (b : Bimap L R) :
    Decidable (Bimap.Inv b) := by
  unfold Bimap.Inv
  infer_instance

end BimapModel

namespace BimapModel

namespace ITree

variable {α K : Type} [LinearOrder K] {p : α → K}

theorem allKeys_iff {q : K → Bool} {t : ITree α} :
    allKeys p q t = true ↔ ∀ c ∈ inorder t, q (p c) = true := by
  induction t with
  | leaf => simp [allKeys, inorder]
  | node l v r ihl ihr =>
    simp only [allKeys, inorder, Bool.and_eq_true, ihl, ihr, List.mem_append,
      List.mem_cons]
    constructor
    · rintro ⟨⟨hv, hL⟩, hR⟩ c (hc | rfl | hc)
      · exact hL c hc
      · exact hv
      · exact hR c hc
    · intro h
      exact ⟨⟨h v (Or.inr (Or.inl rfl)), fun c hc => h c (Or.inl hc)⟩,
        fun c hc => h c (Or.inr (Or.inr hc))⟩

theorem isBST_node {l r : ITree α} {v : α} :
    isBST p (.node l v r) = true ↔
      allKeys p (fun kk => decide (kk < p v)) l = true ∧
      allKeys p (fun kk => decide (p v < kk)) r = true ∧
      isBST p l = true ∧ isBST p r = true := by
  simp [isBST, Bool.and_eq_true, and_assoc]

theorem isBST_pairwise {t : ITree α} (h : isBST p t = true) :
    (inorder t).Pairwise (fun a b => p a < p b) := by
  induction t with
  | leaf => simp [inorder]
  | node l v r ihl ihr =>
    rw [isBST_node] at h
    obtain ⟨hal, har, hl, hr⟩ := h
    rw [allKeys_iff] at hal har
    simp only [inorder]
    rw [List.pairwise_append]
    refine ⟨ihl hl, ?_, ?_⟩
    · rw [List.pairwise_cons]
      exact ⟨fun b hb => by simpa using har b hb, ihr hr⟩
    · intro a ha b hb
      rcases List.mem_cons.mp hb with rfl | hb
      · simpa using hal a ha
      · have h1 : p a < p v := by simpa using hal a ha
        have h2 : p v < p b := by simpa using har b hb
        exact h1.trans h2

theorem find_node {l r : ITree α} {v : α} {k : K} :
    find p k (.node l v r) =
      if p v < k then find p k r else if k < p v then find p k l else some v := by
  rcases r with _ | ⟨rl, rv, rr⟩ <;> rcases l with _ | ⟨ll, lv, lr⟩ <;>
    simp only [find, findLoop] <;> split_ifs <;> rfl

theorem find_some {t : ITree α} {k : K} {c : α} (h : find p k t = some c) :
    c ∈ inorder t ∧ p c = k := by
  induction t with
  | leaf => simp [find, findLoop] at h
  | node l v r ihl ihr =>
    rw [find_node] at h
    split_ifs at h with h1 h2
    · obtain ⟨hm, hk⟩ := ihr h
      exact ⟨by simp [inorder, hm], hk⟩
    · obtain ⟨hm, hk⟩ := ihl h
      exact ⟨by simp [inorder, hm], hk⟩
    · cases h
      exact ⟨by simp [inorder], le_antisymm (not_lt.mp h2) (not_lt.mp h1)⟩

theorem find_present {t : ITree α} (hb : isBST p t = true) {k : K} {c : α}
    (hc : c ∈ inorder t) (hk : p c = k) : find p k t = some c := by
  induction t with
  | leaf => simp [inorder] at hc
  | node l v r ihl ihr =>
    rw [isBST_node] at hb
    obtain ⟨hal, har, hl, hr⟩ := hb
    rw [allKeys_iff] at hal har
    rw [find_node]
    simp only [inorder, List.mem_append, List.mem_cons] at hc
    rcases hc with hc | rfl | hc
    · have hlt : p c < p v := by simpa using hal c hc
      rw [if_neg (by rw [← hk] at *; exact asymm hlt), if_pos (hk ▸ hlt)]
      exact ihl hl hc
    · rw [if_neg (by rw [← hk]; exact lt_irrefl _), if_neg (by rw [← hk]; exact lt_irrefl _)]
    · have hlt : p v < p c := by simpa using har c hc
      rw [if_pos (hk ▸ hlt)]
      exact ihr hr hc

theorem find_eq_none {t : ITree α} (hb : isBST p t = true) {k : K} :
    find p k t = none ↔ ∀ c ∈ inorder t, p c ≠ k := by
  constructor
  · intro h c hc hk
    have h2 := find_present hb hc hk
    rw [h] at h2
    cases h2
  · intro h
    cases hfind : find p k t with
    | none => rfl
    | some c =>
      obtain ⟨hm, hk⟩ := find_some hfind
      exact absurd hk (h c hm)

theorem insert_node {l r : ITree α} {v x : α} :
    insert p x (.node l v r) =
      if p v < p x then (insert p x r).map (fun r2 => ITree.node l v r2)
      else if p x < p v then (insert p x l).map (fun l2 => ITree.node l2 v r)
      else none := by
  rcases r with _ | ⟨rl, rv, rr⟩ <;> rcases l with _ | ⟨ll, lv, lr⟩ <;>
    simp only [insert] <;> split_ifs <;> simp [insert]

theorem insert_perm {t t2 : ITree α} {x : α} (h : insert p x t = some t2) :
    List.Perm (inorder t2) (x :: inorder t) := by
  induction t generalizing t2 with
  | leaf =>
    simp only [insert, Option.some.injEq] at h
    subst h
    simp [inorder]
  | node l v r ihl ihr =>
    rw [insert_node] at h
    split_ifs at h with h1 h2
    · obtain ⟨r2, hr2, rfl⟩ := Option.map_eq_some'.mp h
      simp only [inorder]
      refine (List.Perm.append_left _ (List.Perm.cons v (ihr hr2))).trans ?_
      simpa using
        (List.perm_middle : List.Perm ((inorder l ++ [v]) ++ x :: inorder r) _)
    · obtain ⟨l2, hl2, rfl⟩ := Option.map_eq_some'.mp h
      simp only [inorder]
      simpa using (ihl hl2).append_right (v :: inorder r)

theorem insert_allKeys {q : K → Bool} {t t2 : ITree α} {x : α}
    (h : insert p x t = some t2) (ht : allKeys p q t = true)
    (hx : q (p x) = true) : allKeys p q t2 = true := by
  rw [allKeys_iff] at ht ⊢
  intro c hc
  rcases List.mem_cons.mp ((insert_perm h).mem_iff.mp hc) with rfl | hc2
  · exact hx
  · exact ht c hc2

theorem insert_isBST {t t2 : ITree α} {x : α} (hb : isBST p t = true)
    (h : insert p x t = some t2) : isBST p t2 = true := by
  induction t generalizing t2 with
  | leaf =>
    simp only [insert, Option.some.injEq] at h
    subst h
    simp [isBST, allKeys]
  | node l v r ihl ihr =>
    rw [isBST_node] at hb
    obtain ⟨hal, har, hl, hr⟩ := hb
    rw [insert_node] at h
    split_ifs at h with h1 h2
    · obtain ⟨r2, hr2, rfl⟩ := Option.map_eq_some'.mp h
      exact isBST_node.mpr ⟨hal, insert_allKeys hr2 har (by simpa using h1), hl, ihr hr hr2⟩
    · obtain ⟨l2, hl2, rfl⟩ := Option.map_eq_some'.mp h
      exact isBST_node.mpr ⟨insert_allKeys hl2 hal (by simpa using h2), har, ihl hl hl2, hr⟩

theorem insert_isSome_iff {t : ITree α} {x : α} :
    (insert p x t).isSome = true ↔ find p (p x) t = none := by
  induction t with
  | leaf => simp [insert, find, findLoop]
  | node l v r ihl ihr =>
    rw [insert_node, find_node]
    split_ifs with h1 h2
    · cases ho : insert p x r <;> simp [ho] at ihr ⊢ <;> simp [ihr]
    · cases ho : insert p x l <;> simp [ho] at ihl ⊢ <;> simp [ihl]
    · simp

theorem size_eq_length {t : ITree α} : size t = (inorder t).length := by
  induction t with
  | leaf => simp [size, inorder]
  | node l v r ihl ihr => simp [size, inorder, ihl, ihr]; omega

theorem popMax_inorder {r l : ITree α} {v : α} :
    inorder (ITree.node l v r) =
      inorder (popMax l v r).1 ++ [(popMax l v r).2] := by
  induction r generalizing l v with
  | leaf => simp [popMax, inorder]
  | node rl rv rr ih_rl ih_rr =>
    have hsub : inorder (ITree.node rl rv rr) =
        inorder (popMax rl rv rr).1 ++ [(popMax rl rv rr).2] := ih_rr
    simp only [popMax, inorder] at hsub ⊢
    rw [hsub]
    simp [List.append_assoc]

theorem popMax_isBST {r l : ITree α} {v : α}
    (hb : isBST p (.node l v r) = true) :
    isBST p (popMax l v r).1 = true ∧
      ∀ c ∈ inorder (popMax l v r).1, p c < p (popMax l v r).2 := by
  induction r generalizing l v with
  | leaf =>
    rw [isBST_node] at hb
    obtain ⟨hal, _, hl, _⟩ := hb
    rw [allKeys_iff] at hal
    simp only [popMax]
    exact ⟨hl, fun c hc => by simpa using hal c hc⟩
  | node rl rv rr ih_rl ih_rr =>
    rw [isBST_node] at hb
    obtain ⟨hal, har, hl, hr⟩ := hb
    rw [allKeys_iff] at hal har
    have hrec := ih_rr hr
    have hsub : inorder (ITree.node rl rv rr) =
        inorder (popMax rl rv rr).1 ++ [(popMax rl rv rr).2] := popMax_inorder
    have hmax : (popMax rl rv rr).2 ∈ inorder (ITree.node rl rv rr) := by
      rw [hsub]; simp
    simp only [popMax]
    constructor
    · rw [isBST_node]
      refine ⟨by rw [allKeys_iff]; exact hal, ?_, hl, hrec.1⟩
      rw [allKeys_iff]
      intro c hc
      have : c ∈ inorder (ITree.node rl rv rr) := by rw [hsub]; simp [hc]
      simpa using har c this
    · intro c hc
      have hm2 : p v < p (popMax rl rv rr).2 := by simpa using har _ hmax
      simp only [inorder, List.mem_append, List.mem_cons] at hc
      rcases hc with hc | rfl | hc
      · exact lt_trans (by simpa using hal c hc) hm2
      · exact hm2
      · exact hrec.2 c hc

theorem unlink_inorder {t : ITree α} (hb : isBST p t = true) {k : K} :
    inorder (unlinkKey p k t) =
      (inorder t).filter (fun c => decide (p c ≠ k)) := by
  induction t with
  | leaf => simp [unlinkKey, inorder]
  | node l v r ihl ihr =>
    rw [isBST_node] at hb
    obtain ⟨hal, har, hl, hr⟩ := hb
    rw [allKeys_iff] at hal har
    simp only [unlinkKey]
    split_ifs with h1 h2
    · have hkeep : (inorder l).filter (fun c => decide (p c ≠ k)) = inorder l := by
        rw [List.filter_eq_self]
        intro c hc
        have : p c < p v := by simpa using hal c hc
        simp [ne_of_lt (lt_trans this h1)]
      simp only [inorder, List.filter_append, List.filter_cons, hkeep, ihr hr]
      simp [ne_of_lt h1]
    · have hkeep : (inorder r).filter (fun c => decide (p c ≠ k)) = inorder r := by
        rw [List.filter_eq_self]
        intro c hc
        have : p v < p c := by simpa using har c hc
        simp [(ne_of_lt (lt_trans h2 this)).symm]
      simp only [inorder, List.filter_append, List.filter_cons, hkeep, ihl hl]
      simp [(ne_of_lt h2).symm]
    · have hvk : p v = k := le_antisymm (not_lt.mp h2) (not_lt.mp h1)
      have hkeepr : (inorder r).filter (fun c => decide (p c ≠ k)) = inorder r := by
        rw [List.filter_eq_self]
        intro c hc
        have : p v < p c := by simpa using har c hc
        simp [(ne_of_lt (hvk ▸ this)).symm]
      have hkeepl : (inorder l).filter (fun c => decide (p c ≠ k)) = inorder l := by
        rw [List.filter_eq_self]
        intro c hc
        have : p c < p v := by simpa using hal c hc
        simp [ne_of_lt (hvk ▸ this)]
      rcases l with _ | ⟨ll, lv, lr⟩
      · simp only [inorder, List.filter_append, List.filter_cons, hkeepr]
        simp [hvk]
      · have hpm : inorder (ITree.node ll lv lr) =
            inorder (popMax ll lv lr).1 ++ [(popMax ll lv lr).2] := popMax_inorder
        rw [show inorder (ITree.node (ITree.node ll lv lr) v r) =
            inorder (ITree.node ll lv lr) ++ v :: inorder r from rfl,
          List.filter_append, hkeepl, List.filter_cons]
        have hvf : (decide (p v ≠ k)) = false := by simp [hvk]
        rw [hvf]
        simp only [Bool.false_eq_true, if_false, hkeepr]
        rw [show inorder (ITree.node (popMax ll lv lr).1 (popMax ll lv lr).2 r) =
            inorder (popMax ll lv lr).1 ++ (popMax ll lv lr).2 :: inorder r from rfl,
          hpm]
        simp [List.append_assoc]

theorem unlink_isBST {t : ITree α} (hb : isBST p t = true) {k : K} :
    isBST p (unlinkKey p k t) = true := by
  induction t with
  | leaf => simpa [unlinkKey] using hb
  | node l v r ihl ihr =>
    have hb' := hb
    rw [isBST_node] at hb'
    obtain ⟨hal, har, hl, hr⟩ := hb'
    simp only [unlinkKey]
    split_ifs with h1 h2
    · rw [isBST_node]
      refine ⟨hal, ?_, hl, ihr hr⟩
      rw [allKeys_iff] at har ⊢
      intro c hc
      rw [unlink_inorder hr] at hc
      exact har c (List.mem_of_mem_filter hc)
    · rw [isBST_node]
      refine ⟨?_, har, ihl hl, hr⟩
      rw [allKeys_iff] at hal ⊢
      intro c hc
      rw [unlink_inorder hl] at hc
      exact hal c (List.mem_of_mem_filter hc)
    · rcases l with _ | ⟨ll, lv, lr⟩
      · exact hr
      · have hpop := popMax_isBST (p := p) (r := lr) (l := ll) (v := lv) hl
        have hpm : inorder (ITree.node ll lv lr) =
            inorder (popMax ll lv lr).1 ++ [(popMax ll lv lr).2] := popMax_inorder
        have hmax : (popMax ll lv lr).2 ∈ inorder (ITree.node ll lv lr) := by
          rw [hpm]; simp
        rw [isBST_node]
        rw [allKeys_iff] at hal har
        refine ⟨?_, ?_, hpop.1, hr⟩
        · rw [allKeys_iff]
          intro c hc
          simpa using hpop.2 c hc
        · rw [allKeys_iff]
          intro c hc
          have h1 : p (popMax ll lv lr).2 < p v := by simpa using hal _ hmax
          have h2 : p v < p c := by simpa using har c hc
          simpa using lt_trans h1 h2

theorem pairwise_lt_nodup {xs : List α} (h : xs.Pairwise (fun a b => p a < p b)) :
    xs.Nodup :=
  h.imp (fun hlt => by rintro rfl; exact lt_irrefl _ hlt)

theorem key_inj {xs : List α} (h : xs.Pairwise (fun a b => p a < p b)) {a b : α}
    (ha : a ∈ xs) (hb : b ∈ xs) (hk : p a = p b) : a = b := by
  induction xs with
  | nil => cases ha
  | cons x xs ih =>
    rw [List.pairwise_cons] at h
    rcases List.mem_cons.mp ha with rfl | ha2 <;>
      rcases List.mem_cons.mp hb with rfl | hb2
    · rfl
    · exact absurd (hk ▸ h.1 b hb2) (lt_irrefl _)
    · exact absurd (hk ▸ h.1 a ha2) (lt_irrefl _)
    · exact ih h.2 ha2 hb2

theorem filter_key_eq {xs : List α} (h : xs.Pairwise (fun a b => p a < p b))
    [DecidableEq α] {c : α} (hc : c ∈ xs) :
    xs.filter (fun d => decide (p d ≠ p c)) = xs.filter (fun d => decide (d ≠ c)) := by
  apply List.filter_congr
  intro d hd
  apply decide_eq_decide.mpr
  constructor
  · intro hne heq
    exact hne (heq ▸ rfl)
  · intro hne hkeq
    exact hne (key_inj h hd hc hkeq)

theorem length_filter_ne [DecidableEq α] {xs : List α} (hnd : xs.Nodup) {c : α}
    (hc : c ∈ xs) :
    (xs.filter (fun d => decide (d ≠ c))).length + 1 = xs.length := by
  have he : xs.erase c = xs.filter (fun d => decide (d ≠ c)) := by
    rw [hnd.erase_eq_filter]
    apply List.filter_congr
    intro d _
    by_cases hdc : d = c
    · simp [hdc]
    · simp [bne, hdc, Ne.symm hdc]
  rw [← he, List.length_erase_of_mem hc]
  have : 1 ≤ xs.length := List.length_pos.mpr (List.ne_nil_of_mem hc)
  omega

theorem nextInList_append_some [DecidableEq α] {xs ys : List α} {c d : α}
    (h : nextInList xs c = some d) : nextInList (xs ++ ys) c = some d := by
  induction xs with
  | nil => cases h
  | cons a rest ih =>
    simp only [nextInList, List.cons_append] at h ⊢
    split_ifs at h ⊢ with ha
    · cases rest with
      | nil => cases h
      | cons e es => simpa using h
    · exact ih h

theorem nextInList_append_none [DecidableEq α] {xs ys : List α} {c : α}
    (hc : c ∈ xs) (h : nextInList xs c = none) :
    nextInList (xs ++ ys) c = ys.head? := by
  induction xs with
  | nil => cases hc
  | cons a rest ih =>
    simp only [nextInList, List.cons_append] at h ⊢
    split_ifs at h ⊢ with ha
    · cases rest with
      | nil => rfl
      | cons e es => cases h
    · exact ih (by rcases List.mem_cons.mp hc with rfl | hm; exact absurd rfl ha; exact hm) h

theorem nextInList_of_not_mem [DecidableEq α] {xs ys : List α} {c : α}
    (h : c ∉ xs) : nextInList (xs ++ ys) c = nextInList ys c := by
  induction xs with
  | nil => rfl
  | cons a rest ih =>
    simp only [nextInList, List.cons_append]
    rw [if_neg (show ¬a = c from fun he => h (by rw [← he]; exact List.mem_cons_self a rest))]
    exact ih (fun hm => h (List.mem_cons_of_mem a hm))

theorem find?_append_none {q : α → Bool} {xs ys : List α}
    (h : ∀ x ∈ xs, q x = false) :
    List.find? q (xs ++ ys) = List.find? q ys := by
  rw [List.find?_append, List.find?_eq_none.mpr (fun x hx => by simp [h x hx])]
  rfl

theorem find?_append_some {q : α → Bool} {xs ys : List α} {d : α}
    (h : List.find? q xs = some d) :
    List.find? q (xs ++ ys) = some d := by
  rw [List.find?_append, h]
  rfl

theorem findLoop_node {l r : ITree α} {v : α} {k : K} :
    findLoop p k (.node l v r) =
      if p v < k then
        match r with
        | .leaf => (.add_right, some v)
        | .node rl rv rr => findLoop p k (.node rl rv rr)
      else if k < p v then
        match l with
        | .leaf => (.add_left, some v)
        | .node ll lv lr => findLoop p k (.node ll lv lr)
      else (.there_is, some v) := by
  rcases r with _ | ⟨rl, rv, rr⟩ <;> rcases l with _ | ⟨ll, lv, lr⟩ <;> rfl

theorem findLoop_isSome {t : ITree α} (hne : t ≠ .leaf) {k : K} :
    ((findLoop p k t).2).isSome = true := by
  induction t with
  | leaf => exact absurd rfl hne
  | node l v r ihl ihr =>
    rw [findLoop_node]
    split_ifs with h1 h2
    · cases r with
      | leaf => rfl
      | node rl rv rr => exact ihr (by simp)
    · cases l with
      | leaf => rfl
      | node ll lv lr => exact ihl (by simp)
    · rfl

theorem findLoop_mem {t : ITree α} {k : K} {res : FindRes} {c : α}
    (h : findLoop p k t = (res, some c)) : c ∈ inorder t := by
  induction t with
  | leaf => simp [findLoop] at h
  | node l v r ihl ihr =>
    rw [findLoop_node] at h
    split_ifs at h with h1 h2
    · cases r with
      | leaf =>
        injection h with hres hc
        injection hc with hc
        simp [inorder, ← hc]
      | node rl rv rr =>
        have := ihr h
        simp [inorder] at this ⊢
        tauto
    · cases l with
      | leaf =>
        injection h with hres hc
        injection hc with hc
        simp [inorder, ← hc]
      | node ll lv lr =>
        have := ihl h
        simp [inorder] at this ⊢
        tauto
    · injection h with hres hc
      injection hc with hc
      simp [inorder, ← hc]

end ITree

namespace Bimap

variable {L R : Type} [LinearOrder L] [LinearOrder R]

theorem inv_empty : Inv (empty : Bimap L R) := by
  refine ⟨rfl, rfl, ?_, rfl, rfl⟩
  exact List.Perm.refl _

theorem find_left_eq_none {b : Bimap L R} (h : Inv b) {k : L} :
    b.find_left k = none ↔ ∀ c ∈ ITree.inorder b.left_tree, c.1 ≠ k := by
  simpa [find_left] using ITree.find_eq_none (p := Prod.fst) h.1 (k := k)

theorem find_right_eq_none {b : Bimap L R} (h : Inv b) {k : R} :
    b.find_right k = none ↔ ∀ c ∈ ITree.inorder b.right_tree, c.2 ≠ k := by
  simpa [find_right] using ITree.find_eq_none (p := Prod.snd) h.2.1 (k := k)

theorem find_left_some {b : Bimap L R} {k : L} {c : L × R}
    (h : b.find_left k = some c) : c ∈ ITree.inorder b.left_tree ∧ c.1 = k :=
  ITree.find_some h

theorem find_right_some {b : Bimap L R} {k : R} {c : L × R}
    (h : b.find_right k = some c) : c ∈ ITree.inorder b.right_tree ∧ c.2 = k :=
  ITree.find_some h

theorem find_left_present {b : Bimap L R} (h : Inv b) {c : L × R}
    (hc : c ∈ ITree.inorder b.left_tree) : b.find_left c.1 = some c :=
  ITree.find_present h.1 hc rfl

theorem find_right_present {b : Bimap L R} (h : Inv b) {c : L × R}
    (hc : c ∈ ITree.inorder b.right_tree) : b.find_right c.2 = some c :=
  ITree.find_present h.2.1 hc rfl

theorem insert_absent {b : Bimap L R} (h : Inv b) {l : L} {r : R}
    (hl : ∀ c ∈ ITree.inorder b.left_tree, c.1 ≠ l)
    (hr : ∀ c ∈ ITree.inorder b.right_tree, c.2 ≠ r) :
    (b.insert l r).1 = some (l, r) ∧
    List.Perm (ITree.inorder (b.insert l r).2.left_tree)
      ((l, r) :: ITree.inorder b.left_tree) ∧
    List.Perm (ITree.inorder (b.insert l r).2.right_tree)
      ((l, r) :: ITree.inorder b.right_tree) ∧
    (b.insert l r).2.n_node = b.n_node + 1 ∧
    Inv (b.insert l r).2 := by
  obtain ⟨hbl, hbr, hperm, hnl, hnr⟩ := h
  have hfl : b.find_left l = none := (find_left_eq_none ⟨hbl, hbr, hperm, hnl, hnr⟩).mpr hl
  have hfr : b.find_right r = none := (find_right_eq_none ⟨hbl, hbr, hperm, hnl, hnr⟩).mpr hr
  have hil : (ITree.insert Prod.fst (l, r) b.left_tree).isSome = true := by
    rw [ITree.insert_isSome_iff]
    exact hfl
  have hir : (ITree.insert Prod.snd (l, r) b.right_tree).isSome = true := by
    rw [ITree.insert_isSome_iff]
    exact hfr
  obtain ⟨lt2, hlt2⟩ := Option.isSome_iff_exists.mp hil
  obtain ⟨rt2, hrt2⟩ := Option.isSome_iff_exists.mp hir
  have hres : b.insert l r =
      (some (l, r), ⟨lt2, rt2, b.n_node + 1⟩) := by
    simp [insert, hfl, hfr, hlt2, hrt2]
  have hpl := ITree.insert_perm hlt2
  have hpr := ITree.insert_perm hrt2
  rw [hres]
  refine ⟨rfl, hpl, hpr, rfl, ?_⟩
  refine ⟨ITree.insert_isBST hbl hlt2, ITree.insert_isBST hbr hrt2, ?_, ?_, ?_⟩
  · exact hpr.trans ((hperm.cons (l, r)).trans hpl.symm)
  · simp [hpl.length_eq, hnl]
  · simp [hpr.length_eq, hnr]

theorem insert_present {b : Bimap L R} (h : Inv b) {l : L} {r : R}
    (hpres : (∃ c ∈ ITree.inorder b.left_tree, c.1 = l) ∨
      (∃ c ∈ ITree.inorder b.right_tree, c.2 = r)) :
    b.insert l r = (none, b) := by
  rcases hpres with ⟨c, hc, hk⟩ | ⟨c, hc, hk⟩
  · have hfl : b.find_left l = some c := hk ▸ find_left_present h hc
    cases hfr : b.find_right r <;> simp [insert, hfl, hfr]
  · have hfr : b.find_right r = some c := hk ▸ find_right_present h hc
    cases hfl : b.find_left l <;> simp [insert, hfl, hfr]

theorem eraseRecord_effect {b : Bimap L R} (h : Inv b) {c : L × R}
    (hc : c ∈ ITree.inorder b.left_tree) :
    ITree.inorder (b.eraseRecord c).left_tree =
      (ITree.inorder b.left_tree).filter (fun d => decide (d ≠ c)) ∧
    ITree.inorder (b.eraseRecord c).right_tree =
      (ITree.inorder b.right_tree).filter (fun d => decide (d ≠ c)) ∧
    (b.eraseRecord c).n_node = b.n_node - 1 ∧
    Inv (b.eraseRecord c) := by
  obtain ⟨hbl, hbr, hperm, hnl, hnr⟩ := h
  have hpwl := ITree.isBST_pairwise hbl
  have hpwr := ITree.isBST_pairwise hbr
  have hcr : c ∈ ITree.inorder b.right_tree := hperm.mem_iff.mpr hc
  have hL : ITree.inorder (b.eraseRecord c).left_tree =
      (ITree.inorder b.left_tree).filter (fun d => decide (d ≠ c)) := by
    show ITree.inorder (ITree.unlinkKey Prod.fst c.1 b.left_tree) = _
    rw [ITree.unlink_inorder hbl, ITree.filter_key_eq hpwl hc]
  have hR : ITree.inorder (b.eraseRecord c).right_tree =
      (ITree.inorder b.right_tree).filter (fun d => decide (d ≠ c)) := by
    show ITree.inorder (ITree.unlinkKey Prod.snd c.2 b.right_tree) = _
    rw [ITree.unlink_inorder hbr, ITree.filter_key_eq hpwr hcr]
  have hlenL := ITree.length_filter_ne (ITree.pairwise_lt_nodup hpwl) hc
  have hlenR := ITree.length_filter_ne (ITree.pairwise_lt_nodup hpwr) hcr
  refine ⟨hL, hR, rfl, ?_⟩
  refine ⟨ITree.unlink_isBST hbl, ITree.unlink_isBST hbr, ?_, ?_, ?_⟩
  · rw [hL, hR]
    exact hperm.filter _
  · show b.n_node - 1 = _
    rw [hL]
    omega
  · show b.n_node - 1 = _
    rw [hR]
    omega

theorem erase_left_inv {b : Bimap L R} (h : Inv b) {k : L} :
    Inv (b.erase_left k).2 := by
  cases hf : b.find_left k with
  | none => simpa [erase_left, hf] using h
  | some c =>
    have hc := (find_left_some hf).1
    simpa [erase_left, hf] using (eraseRecord_effect h hc).2.2.2

theorem erase_right_inv {b : Bimap L R} (h : Inv b) {k : R} :
    Inv (b.erase_right k).2 := by
  cases hf : b.find_right k with
  | none => simpa [erase_right, hf] using h
  | some c =>
    have hc : c ∈ ITree.inorder b.left_tree :=
      h.2.2.1.mem_iff.mp (find_right_some hf).1
    simpa [erase_right, hf] using (eraseRecord_effect h hc).2.2.2

theorem insert_inv {b : Bimap L R} (h : Inv b) {l : L} {r : R} :
    Inv (b.insert l r).2 := by
  cases hfl : b.find_left l with
  | some c =>
    have hp := insert_present h (r := r)
      (Or.inl ⟨c, (find_left_some hfl).1, (find_left_some hfl).2⟩)
    rw [hp]
    exact h
  | none =>
    cases hfr : b.find_right r with
    | some c =>
      have hp := insert_present h (l := l)
        (Or.inr ⟨c, (find_right_some hfr).1, (find_right_some hfr).2⟩)
      rw [hp]
      exact h
    | none =>
      exact (insert_absent h ((find_left_eq_none h).mp hfl)
        ((find_right_eq_none h).mp hfr)).2.2.2.2

theorem applyOp_inv {b : Bimap L R} (h : Inv b) (op : Op L R) :
    Inv (applyOp b op) := by
  cases op with
  | ins l r => exact insert_inv h
  | delL k => exact erase_left_inv h
  | delR k => exact erase_right_inv h

theorem foldl_applyOp_inv {b : Bimap L R} (h : Inv b) (ops : List (Op L R)) :
    Inv (ops.foldl applyOp b) := by
  induction ops generalizing b with
  | nil => exact h
  | cons op ops ih => exact ih (applyOp_inv h op)

theorem runOps_inv (ops : List (Op L R)) : Inv (runOps ops) :=
  foldl_applyOp_inv inv_empty ops

theorem copy_fold {xs : List (L × R)} {acc : Bimap L R} (hInv : Inv acc)
    (hd1 : ∀ x ∈ xs, ∀ c ∈ ITree.inorder acc.left_tree, c.1 ≠ x.1)
    (hd2 : ∀ x ∈ xs, ∀ c ∈ ITree.inorder acc.right_tree, c.2 ≠ x.2)
    (hpw1 : xs.Pairwise (fun a b => a.1 ≠ b.1))
    (hpw2 : xs.Pairwise (fun a b => a.2 ≠ b.2)) :
    Inv (xs.foldl (fun a c => (a.insert c.1 c.2).2) acc) ∧
    List.Perm
      (ITree.inorder (xs.foldl (fun a c => (a.insert c.1 c.2).2) acc).left_tree)
      (ITree.inorder acc.left_tree ++ xs) := by
  induction xs generalizing acc with
  | nil => exact ⟨hInv, by simp⟩
  | cons x xs ih =>
    rw [List.pairwise_cons] at hpw1 hpw2
    have hxl : ∀ c ∈ ITree.inorder acc.left_tree, c.1 ≠ x.1 :=
      hd1 x (List.mem_cons_self x xs)
    have hxr : ∀ c ∈ ITree.inorder acc.right_tree, c.2 ≠ x.2 :=
      hd2 x (List.mem_cons_self x xs)
    obtain ⟨-, hpl, hpr, -, hinv2⟩ := insert_absent hInv hxl hxr
    have hpl' : List.Perm (ITree.inorder (acc.insert x.1 x.2).2.left_tree)
        (x :: ITree.inorder acc.left_tree) := by simpa using hpl
    have hpr' : List.Perm (ITree.inorder (acc.insert x.1 x.2).2.right_tree)
        (x :: ITree.inorder acc.right_tree) := by simpa using hpr
    have hd1' : ∀ y ∈ xs, ∀ c ∈ ITree.inorder (acc.insert x.1 x.2).2.left_tree,
        c.1 ≠ y.1 := by
      intro y hy c hc
      rcases List.mem_cons.mp (hpl'.mem_iff.mp hc) with rfl | hc2
      · exact hpw1.1 y hy
      · exact hd1 y (List.mem_cons_of_mem x hy) c hc2
    have hd2' : ∀ y ∈ xs, ∀ c ∈ ITree.inorder (acc.insert x.1 x.2).2.right_tree,
        c.2 ≠ y.2 := by
      intro y hy c hc
      rcases List.mem_cons.mp (hpr'.mem_iff.mp hc) with rfl | hc2
      · exact hpw2.1 y hy
      · exact hd2 y (List.mem_cons_of_mem x hy) c hc2
    obtain ⟨hfinv, hfperm⟩ := ih hinv2 hd1' hd2' hpw1.2 hpw2.2
    refine ⟨by simpa using hfinv, ?_⟩
    simp only [List.foldl_cons]
    refine hfperm.trans ?_
    refine (hpl'.append_right xs).trans ?_
    exact (List.perm_middle :
      List.Perm (ITree.inorder acc.left_tree ++ x :: xs) _).symm

theorem zip_self_all {xs : List (L × R)} :
    ((xs.zip xs).all (fun q => q.1.1 == q.2.1 && q.1.2 == q.2.2)) = true := by
  induction xs with
  | nil => rfl
  | cons x xs ih => simpa using ih

end Bimap

theorem findLoop_there_is {α K : Type} [LinearOrder K] {p : α → K}
    {t : ITree α} (hb : ITree.isBST p t = true) {k : K}
    (hex : ∃ c ∈ ITree.inorder t, p c = k) :
    ∃ c, ITree.findLoop p k t = (.there_is, some c) := by
  obtain ⟨c, hc, hk⟩ := hex
  have hf := ITree.find_present hb hc hk
  unfold ITree.find at hf
  rcases hres : ITree.findLoop p k t with ⟨res, copt⟩
  rw [hres] at hf
  cases res
  · exact ⟨c, by rw [show copt = some c from hf]⟩
  · cases hf
  · cases hf

/-- C1: `insert(l, r)` on a bimap already holding `l` in the left index or
`r` in the right index returns `end_left()` and leaves the container
unchanged; otherwise it links one new pair record into both indexes,
increments the live-pair count by one, and returns the new record's
left-side position. -/
theorem C1_insert_spec {L R : Type} [LinearOrder L] [LinearOrder R]
    {b : Bimap L R} (h : Bimap.Inv b) (l : L) (r : R) :
    (((∃ c ∈ ITree.inorder b.left_tree, c.1 = l) ∨
        (∃ c ∈ ITree.inorder b.right_tree, c.2 = r)) →
      b.insert l r = (none, b)) ∧
    ((∀ c ∈ ITree.inorder b.left_tree, c.1 ≠ l) →
      (∀ c ∈ ITree.inorder b.right_tree, c.2 ≠ r) →
      (b.insert l r).1 = some (l, r) ∧
      List.Perm (ITree.inorder (b.insert l r).2.left_tree)
        ((l, r) :: ITree.inorder b.left_tree) ∧
      List.Perm (ITree.inorder (b.insert l r).2.right_tree)
        ((l, r) :: ITree.inorder b.right_tree) ∧
      (b.insert l r).2.n_node = b.n_node + 1) := by
  refine ⟨Bimap.insert_present h, fun hl hr => ?_⟩
  obtain ⟨h1, h2, h3, h4, _⟩ := Bimap.insert_absent h hl hr
  exact ⟨h1, h2, h3, h4⟩

theorem C1_insert_spec_witness :
    ((⟨.node .leaf (1, 10) .leaf, .node .leaf (1, 10) .leaf, 1⟩ :
      Bimap Nat Nat).insert 2 20).1 = some (2, 20) :=
  ((C1_insert_spec (by decide) 2 20).2 (by decide) (by decide)).1

/-- C2: on a freshly constructed `bimap<int, string>` (strings modelled as
character lists under the lexicographic order of `std::string`), after
`insert(1,"a")`, `insert(2,"b")`, `insert(3,"c")`: `at_left(2)` yields
`"b"`; `erase_left(2)` reports `true`; afterwards `find_right("b")` is
`end_right()` and `size()` is `2`. -/
theorem C2_concrete_scenario :
    let b0 : Bimap Int (List Char) := .empty
    let b1 := (b0.insert 1 ['a']).2
    let b2 := (b1.insert 2 ['b']).2
    let b3 := (b2.insert 3 ['c']).2
    b3.at_left 2 = .ok ['b'] ∧
    (b3.erase_left 2).1 = true ∧
    ((b3.erase_left 2).2.find_right ['b']) = none ∧
    (b3.erase_left 2).2.size = 2 := by
  decide

/-- C3: in every state reachable from the empty bimap by insert /
erase-by-key operations, `size()` equals the number of live pair records
(the length of a full left traversal) and equals both indexes' node
counts. -/
theorem C3_size_consistency {L R : Type} [LinearOrder L] [LinearOrder R]
    (ops : List (Bimap.Op L R)) :
    (Bimap.runOps ops).size = (ITree.inorder (Bimap.runOps ops).left_tree).length ∧
    (Bimap.runOps ops).size = ITree.size (Bimap.runOps ops).left_tree ∧
    (Bimap.runOps ops).size = ITree.size (Bimap.runOps ops).right_tree := by
  have h := Bimap.runOps_inv ops
  rw [ITree.size_eq_length, ITree.size_eq_length]
  exact ⟨h.2.2.2.1, h.2.2.2.1, h.2.2.2.2⟩

/-- C4: `flip` is an involution on every left position holding a live
record, and the two end positions flip into each other through the
sentinel cross-link. -/
theorem C4_flip_involution {L R : Type} [LinearOrder L] [LinearOrder R]
    {b : Bimap L R} {q : LeftPos L R} {c : L × R}
    (h : q.it = some c ∧ c ∈ ITree.inorder b.left_tree) :
    q.flip.flip = q ∧ b.end_left.flip = b.end_right ∧
      b.end_right.flip = b.end_left :=
  ⟨rfl, rfl, rfl⟩

theorem C4_flip_involution_witness :
    (⟨some (1, 2)⟩ : LeftPos Nat Nat).flip.flip = ⟨some (1, 2)⟩ ∧
    (⟨.node .leaf (1, 2) .leaf, .node .leaf (1, 2) .leaf, 1⟩ :
        Bimap Nat Nat).end_left.flip =
      (⟨.node .leaf (1, 2) .leaf, .node .leaf (1, 2) .leaf, 1⟩ :
        Bimap Nat Nat).end_right ∧
    (⟨.node .leaf (1, 2) .leaf, .node .leaf (1, 2) .leaf, 1⟩ :
        Bimap Nat Nat).end_right.flip =
      (⟨.node .leaf (1, 2) .leaf, .node .leaf (1, 2) .leaf, 1⟩ :
        Bimap Nat Nat).end_left :=
  C4_flip_involution ⟨rfl, by decide⟩

/-- C5: when `key` is absent on the left, `at_left_or_default` first erases
the pair currently holding the default-constructed right value (if any),
then inserts `(key, default)` and returns the new record's right value
(the default); when `key` is present it returns the paired value and the
container is unchanged. -/
theorem C5_at_left_or_default_spec {L R : Type} [LinearOrder L] [LinearOrder R]
    [Inhabited R] {b : Bimap L R} (h : Bimap.Inv b) (k : L) :
    (∀ c ∈ ITree.inorder b.left_tree, c.1 = k →
      b.at_left_or_default k = (c.2, b)) ∧
    ((∀ c ∈ ITree.inorder b.left_tree, c.1 ≠ k) →
      (b.at_left_or_default k).1 = (default : R) ∧
      List.Perm (ITree.inorder (b.at_left_or_default k).2.left_tree)
        ((k, (default : R)) ::
          (ITree.inorder b.left_tree).filter
            (fun c => decide (c.2 ≠ (default : R)))) ∧
      List.Perm (ITree.inorder (b.at_left_or_default k).2.right_tree)
        ((k, (default : R)) ::
          (ITree.inorder b.right_tree).filter
            (fun c => decide (c.2 ≠ (default : R))))) := by
  constructor
  · intro c hc hk
    have hf : b.find_left k = some c := by
      rw [← hk]
      exact Bimap.find_left_present h hc
    simp only [Bimap.at_left_or_default, hf]
  · intro habs
    have hfl : b.find_left k = none := (Bimap.find_left_eq_none h).mpr habs
    cases hfr : b.find_right (default : R) with
    | none =>
      have hrd : ∀ c ∈ ITree.inorder b.right_tree, c.2 ≠ (default : R) :=
        (Bimap.find_right_eq_none h).mp hfr
      have hld : ∀ c ∈ ITree.inorder b.left_tree, c.2 ≠ (default : R) :=
        fun c hc => hrd c (h.2.2.1.mem_iff.mpr hc)
      obtain ⟨hpos, hpl, hpr, _, _⟩ := Bimap.insert_absent h habs hrd
      have heq : b.at_left_or_default k =
          (((b.insert k (default : R)).1.getD (k, default)).2,
            (b.insert k (default : R)).2) := by
        simp only [Bimap.at_left_or_default, hfl, hfr]
      rw [heq]
      rw [List.filter_eq_self.mpr (fun c hc => by simp [hld c hc]),
        List.filter_eq_self.mpr (fun c hc => by simp [hrd c hc])]
      exact ⟨by rw [hpos]; rfl, hpl, hpr⟩
    | some c =>
      have hcr : c ∈ ITree.inorder b.right_tree := (Bimap.find_right_some hfr).1
      have hcd : c.2 = (default : R) := (Bimap.find_right_some hfr).2
      have hcl : c ∈ ITree.inorder b.left_tree := h.2.2.1.mem_iff.mp hcr
      have hpwr := ITree.isBST_pairwise h.2.1
      obtain ⟨hEL, hER, _, hInv1⟩ := Bimap.eraseRecord_effect h hcl
      have hfiltL : (ITree.inorder b.left_tree).filter (fun d => decide (d ≠ c)) =
          (ITree.inorder b.left_tree).filter
            (fun d => decide (d.2 ≠ (default : R))) := by
        apply List.filter_congr
        intro d hd
        apply decide_eq_decide.mpr
        constructor
        · intro hdc hdd
          have hdr : d ∈ ITree.inorder b.right_tree := h.2.2.1.mem_iff.mpr hd
          exact hdc (ITree.key_inj hpwr hdr hcr (hdd.trans hcd.symm))
        · intro hdd hdc
          exact hdd (hdc ▸ hcd)
      have hfiltR : (ITree.inorder b.right_tree).filter (fun d => decide (d ≠ c)) =
          (ITree.inorder b.right_tree).filter
            (fun d => decide (d.2 ≠ (default : R))) := by
        apply List.filter_congr
        intro d hd
        apply decide_eq_decide.mpr
        constructor
        · intro hdc hdd
          exact hdc (ITree.key_inj hpwr hd hcr (hdd.trans hcd.symm))
        · intro hdd hdc
          exact hdd (hdc ▸ hcd)
      have habs1 : ∀ d ∈ ITree.inorder (b.eraseRecord c).left_tree, d.1 ≠ k := by
        intro d hd
        rw [hEL] at hd
        exact habs d (List.mem_of_mem_filter hd)
      have hrd1 : ∀ d ∈ ITree.inorder (b.eraseRecord c).right_tree,
          d.2 ≠ (default : R) := by
        intro d hd
        rw [hER, hfiltR] at hd
        have := List.of_mem_filter hd
        simpa using this
      obtain ⟨hpos, hpl, hpr, _, _⟩ := Bimap.insert_absent hInv1 habs1 hrd1
      have heq : b.at_left_or_default k =
          ((((b.eraseRecord c).insert k (default : R)).1.getD (k, default)).2,
            ((b.eraseRecord c).insert k (default : R)).2) := by
        simp only [Bimap.at_left_or_default, hfl, hfr]
      rw [heq]
      refine ⟨by rw [hpos]; rfl, ?_, ?_⟩
      · rw [← hfiltL, ← hEL]
        exact hpl
      · rw [← hfiltR, ← hER]
        exact hpr

theorem C5_at_left_or_default_spec_witness :
    ((Bimap.empty : Bimap Nat Nat).at_left_or_default 5).1 = 0 ∧
    List.Perm
      (ITree.inorder ((Bimap.empty : Bimap Nat Nat).at_left_or_default 5).2.left_tree)
      [(5, 0)] :=
  ⟨((C5_at_left_or_default_spec Bimap.inv_empty 5).2 (by decide)).1,
    ((C5_at_left_or_default_spec Bimap.inv_empty 5).2 (by decide)).2.1⟩

/-- C6: `at_left` / `at_right` fail with the distinguishable out-of-range
error exactly when the key has no pair, and otherwise return the paired
opposite-side value; being lookups on a constant container they perform
no mutation. -/
theorem C6_at_spec {L R : Type} [LinearOrder L] [LinearOrder R]
    {b : Bimap L R} (h : Bimap.Inv b) (k : L) (k2 : R) :
    (b.at_left k = .error .out_of_range ↔
      ∀ c ∈ ITree.inorder b.left_tree, c.1 ≠ k) ∧
    (∀ c ∈ ITree.inorder b.left_tree, c.1 = k → b.at_left k = .ok c.2) ∧
    (b.at_right k2 = .error .out_of_range ↔
      ∀ c ∈ ITree.inorder b.right_tree, c.2 ≠ k2) ∧
    (∀ c ∈ ITree.inorder b.right_tree, c.2 = k2 → b.at_right k2 = .ok c.1) := by
  refine ⟨?_, ?_, ?_, ?_⟩
  · constructor
    · intro he
      cases hf : b.find_left k with
      | none => exact (Bimap.find_left_eq_none h).mp hf
      | some c => simp only [Bimap.at_left, hf] at he; cases he
    · intro habs
      have hf := (Bimap.find_left_eq_none h).mpr habs
      simp only [Bimap.at_left, hf]
  · intro c hc hk
    have hf : b.find_left k = some c := by
      rw [← hk]
      exact Bimap.find_left_present h hc
    simp only [Bimap.at_left, hf]
  · constructor
    · intro he
      cases hf : b.find_right k2 with
      | none => exact (Bimap.find_right_eq_none h).mp hf
      | some c => simp only [Bimap.at_right, hf] at he; cases he
    · intro habs
      have hf := (Bimap.find_right_eq_none h).mpr habs
      simp only [Bimap.at_right, hf]
  · intro c hc hk
    have hf : b.find_right k2 = some c := by
      rw [← hk]
      exact Bimap.find_right_present h hc
    simp only [Bimap.at_right, hf]

theorem C6_at_spec_witness :
    (⟨.node .leaf (1, 10) .leaf, .node .leaf (1, 10) .leaf, 1⟩ :
        Bimap Nat Nat).at_left 1 = .ok 10 ∧
    (⟨.node .leaf (1, 10) .leaf, .node .leaf (1, 10) .leaf, 1⟩ :
        Bimap Nat Nat).at_right 7 = .error .out_of_range :=
  ⟨(C6_at_spec (by decide) 1 7).2.1 (1, 10) (by decide) rfl,
    ((C6_at_spec (by decide) 1 7).2.2.1).mpr (by decide)⟩

/-- C7: the move constructor transfers every pair to the new container (it
compares equal to the original contents), but the moved-from source is
NOT left in an empty, valid state: its trees become empty while its
`n_node` member keeps the old count, so `size()` still reports `1` after
moving from a one-pair bimap, `empty()` returns `false`, and the debug
assertions inside `empty()` fail. -/
theorem C7_move_ctor_bug :
    let b : Bimap Nat Nat := (Bimap.empty.insert 1 2).2
    let mv := b.moveCtor
    Bimap.beq mv.1 b = true ∧
    mv.2.left_tree = .leaf ∧ mv.2.right_tree = .leaf ∧
    mv.2.size = 1 ∧ mv.2.is_empty = false ∧
    Bimap.emptyAsserts mv.2 = false := by
  decide

/-- C9: the copy constructor re-inserts every pair in left order into a
fresh empty container; the copy compares equal to the original under
`operator==` (same size, pairwise-equivalent left keys and right values in
a simultaneous left-order walk).  In this functional embedding the copy
shares no state with the source, so mutating it cannot affect the
source. -/
theorem C9_copy_eq {L R : Type} [LinearOrder L] [LinearOrder R]
    {b : Bimap L R} (h : Bimap.Inv b) :
    Bimap.beq (Bimap.copyCtor b) b = true := by
  have hpwl := ITree.isBST_pairwise h.1
  have hpwr := ITree.isBST_pairwise h.2.1
  have hpw1 : (ITree.inorder b.left_tree).Pairwise (fun a b => a.1 ≠ b.1) :=
    hpwl.imp (fun hlt => ne_of_lt hlt)
  have hpw2 : (ITree.inorder b.left_tree).Pairwise (fun a b => a.2 ≠ b.2) :=
    (List.Perm.pairwise_iff (fun hab he => hab he.symm) h.2.2.1).mp
      (hpwr.imp (fun hlt => ne_of_lt hlt))
  obtain ⟨hcinv, hcperm⟩ := Bimap.copy_fold (Bimap.inv_empty (L := L) (R := R))
    (fun x _ c hc => absurd hc (List.not_mem_nil c))
    (fun x _ c hc => absurd hc (List.not_mem_nil c)) hpw1 hpw2
  have hperm : List.Perm (ITree.inorder (Bimap.copyCtor b).left_tree)
      (ITree.inorder b.left_tree) := by
    simpa [Bimap.copyCtor, Bimap.empty, ITree.inorder] using hcperm
  have hsorted_copy : (ITree.inorder (Bimap.copyCtor b).left_tree).Pairwise
      (fun a b => a.1 < b.1) := ITree.isBST_pairwise hcinv.1
  haveI : IsAntisymm (L × R) (fun a b => a.1 < b.1) :=
    ⟨fun a b h1 h2 => absurd (lt_trans h1 h2) (lt_irrefl _)⟩
  have heq : ITree.inorder (Bimap.copyCtor b).left_tree =
      ITree.inorder b.left_tree :=
    List.eq_of_perm_of_sorted hperm hsorted_copy hpwl
  have hlen : (Bimap.copyCtor b).n_node = b.n_node := by
    have h1 : (Bimap.copyCtor b).n_node =
        (ITree.inorder (Bimap.copyCtor b).left_tree).length := hcinv.2.2.2.1
    rw [h1, heq, ← h.2.2.2.1]
  simp only [Bimap.beq, Bimap.size]
  rw [hlen, heq]
  simp [Bimap.zip_self_all]

theorem C9_copy_eq_witness :
    Bimap.beq
      (Bimap.copyCtor
        (⟨.node .leaf (1, 10) .leaf, .node .leaf (1, 10) .leaf, 1⟩ : Bimap Nat Nat))
      (⟨.node .leaf (1, 10) .leaf, .node .leaf (1, 10) .leaf, 1⟩ : Bimap Nat Nat) =
      true :=
  C9_copy_eq (by decide)

/-- C10: on a nonempty index tree containing a record whose key is
equivalent to the searched value's key, `remove(T&)` returns `end()` and
leaves the tree untouched — the `THERE_IS` branch returns immediately
without unlinking or changing the node count. -/
theorem C10_remove_equiv_noop {α K : Type} [LinearOrder K] [DecidableEq α]
    {p : α → K} {t : ITree α} {x : α}
    (hne : t ≠ .leaf) (hb : ITree.isBST p t = true)
    (hex : ∃ c ∈ ITree.inorder t, p c = p x) :
    ITree.remove p x t = some (none, t) := by
  obtain ⟨c, hres⟩ := findLoop_there_is hb hex
  rcases t with _ | ⟨l, v, r⟩
  · exact absurd rfl hne
  · simp [ITree.remove, hres]

/-- C8: on every binary-search-tree index, `find_next(k)` returns the lower
bound of `k` — the first in-order position whose key is not below `k` —
and `end` (modelled `none`) when no key in the index is greater than or
equal to `k`, in particular on an empty index. -/
theorem C8_find_next_lower_bound {α K : Type} [LinearOrder K] [DecidableEq α]
    {p : α → K} {t : ITree α} (hb : ITree.isBST p t = true) (k : K) :
    ITree.find_next p k t =
      (ITree.inorder t).find? (fun c => decide (k ≤ p c)) := by
  induction t with
  | leaf => rfl
  | node l v r ihl ihr =>
    rw [ITree.isBST_node] at hb
    obtain ⟨hal0, har0, hl, hr⟩ := hb
    rw [ITree.allKeys_iff] at hal0 har0
    have hal : ∀ c ∈ ITree.inorder l, p c < p v := fun c hc => by simpa using hal0 c hc
    have har : ∀ c ∈ ITree.inorder r, p v < p c := fun c hc => by simpa using har0 c hc
    by_cases h1 : p v < k
    · have hfail : ∀ x ∈ ITree.inorder l ++ [v],
          (fun c => decide (k ≤ p c)) x = false := by
        intro x hx
        rcases List.mem_append.mp hx with hx | hx
        · simp [not_le.mpr (lt_trans (hal x hx) h1)]
        · rcases List.mem_singleton.mp hx with rfl
          simp [not_le.mpr h1]
      have hconcat : ITree.inorder (ITree.node l v r) =
          (ITree.inorder l ++ [v]) ++ ITree.inorder r := by
        simp [ITree.inorder]
      rcases r with _ | ⟨rl, rv, rr⟩
      · have hloop : ITree.findLoop p k (ITree.node l v .leaf) =
            (.add_right, some v) := by
          rw [ITree.findLoop_node, if_pos h1]
        have hrhs : (ITree.inorder (ITree.node l v .leaf)).find?
            (fun c => decide (k ≤ p c)) = none := by
          rw [List.find?_eq_none]
          intro x hx
          have hx' : x ∈ ITree.inorder l ++ [v] := by
            simpa [ITree.inorder] using hx
          simp [hfail x hx']
        simp only [ITree.find_next, hloop]
        rw [hrhs]
        unfold ITree.succAfter
        have hvl : v ∉ ITree.inorder l := fun hm => absurd (hal v hm) (lt_irrefl _)
        rw [show ITree.inorder (ITree.node l v ITree.leaf) =
            ITree.inorder l ++ [v] by simp [ITree.inorder]]
        rw [ITree.nextInList_of_not_mem hvl]
        simp [ITree.nextInList]
      · have hloop : ITree.findLoop p k (ITree.node l v (ITree.node rl rv rr)) =
            ITree.findLoop p k (ITree.node rl rv rr) := by
          rw [ITree.findLoop_node, if_pos h1]
        have hrhs : (ITree.inorder (ITree.node l v (ITree.node rl rv rr))).find?
              (fun c => decide (k ≤ p c)) =
            (ITree.inorder (ITree.node rl rv rr)).find?
              (fun c => decide (k ≤ p c)) := by
          rw [hconcat]
          exact ITree.find?_append_none hfail
        rw [hrhs, ← ihr hr]
        rcases hres : ITree.findLoop p k (ITree.node rl rv rr) with ⟨res, copt⟩
        have hsome := ITree.findLoop_isSome (t := ITree.node rl rv rr)
          (p := p) (by simp) (k := k)
        rw [hres] at hsome
        rcases copt with _ | c
        · simp at hsome
        cases res with
        | there_is => simp only [ITree.find_next, hloop, hres]
        | add_left => simp only [ITree.find_next, hloop, hres]
        | add_right =>
          simp only [ITree.find_next, hloop, hres]
          have hcr : c ∈ ITree.inorder (ITree.node rl rv rr) :=
            ITree.findLoop_mem hres
          have hnot : c ∉ ITree.inorder l ++ [v] := by
            intro hm
            rcases List.mem_append.mp hm with hm | hm
            · exact absurd (lt_trans (hal c hm) (har c hcr)) (lt_irrefl _)
            · rcases List.mem_singleton.mp hm with rfl
              exact absurd (har c hcr) (lt_irrefl _)
          unfold ITree.succAfter
          rw [hconcat, ITree.nextInList_of_not_mem hnot]
    · by_cases h2 : k < p v
      · rcases l with _ | ⟨ll, lv, lr⟩
        · have hloop : ITree.findLoop p k (ITree.node .leaf v r) =
              (.add_left, some v) := by
            rw [ITree.findLoop_node, if_neg h1, if_pos h2]
          simp only [ITree.find_next, hloop]
          rw [show ITree.inorder (ITree.node ITree.leaf v r) =
              v :: ITree.inorder r by simp [ITree.inorder]]
          rw [List.find?_cons_of_pos _ (by simp [le_of_lt h2])]
        · have hloop : ITree.findLoop p k (ITree.node (ITree.node ll lv lr) v r) =
              ITree.findLoop p k (ITree.node ll lv lr) := by
            rw [ITree.findLoop_node, if_neg h1, if_pos h2]
          have hconcatL : ITree.inorder (ITree.node (ITree.node ll lv lr) v r) =
              ITree.inorder (ITree.node ll lv lr) ++ (v :: ITree.inorder r) := by
            simp [ITree.inorder]
          rcases hres : ITree.findLoop p k (ITree.node ll lv lr) with ⟨res, copt⟩
          have hsome := ITree.findLoop_isSome (t := ITree.node ll lv lr)
            (p := p) (by simp) (k := k)
          rw [hres] at hsome
          rcases copt with _ | c
          · simp at hsome
          have hIH := ihl hl
          cases res with
          | there_is =>
            simp only [ITree.find_next, hloop, hres]
            have hfq : (ITree.inorder (ITree.node ll lv lr)).find?
                (fun c => decide (k ≤ p c)) = some c := by
              rw [← hIH]
              simp only [ITree.find_next, hres]
            rw [hconcatL, ITree.find?_append_some hfq]
          | add_left =>
            simp only [ITree.find_next, hloop, hres]
            have hfq : (ITree.inorder (ITree.node ll lv lr)).find?
                (fun c => decide (k ≤ p c)) = some c := by
              rw [← hIH]
              simp only [ITree.find_next, hres]
            rw [hconcatL, ITree.find?_append_some hfq]
          | add_right =>
            simp only [ITree.find_next, hloop, hres]
            have hcl : c ∈ ITree.inorder (ITree.node ll lv lr) :=
              ITree.findLoop_mem hres
            have hfnl : ITree.find_next p k (ITree.node ll lv lr) =
                ITree.succAfter (ITree.node ll lv lr) c := by
              simp only [ITree.find_next, hres]
            cases hnl : ITree.nextInList (ITree.inorder (ITree.node ll lv lr)) c with
            | none =>
              have hfq : (ITree.inorder (ITree.node ll lv lr)).find?
                  (fun c => decide (k ≤ p c)) = none := by
                rw [← hIH, hfnl]
                exact hnl
              unfold ITree.succAfter
              rw [hconcatL, ITree.nextInList_append_none hcl hnl]
              rw [ITree.find?_append_none
                (fun x hx => by simpa using (List.find?_eq_none.mp hfq) x hx)]
              rw [List.find?_cons_of_pos _ (by simp [le_of_lt h2])]
              rfl
            | some d =>
              have hfq : (ITree.inorder (ITree.node ll lv lr)).find?
                  (fun c => decide (k ≤ p c)) = some d := by
                rw [← hIH, hfnl]
                exact hnl
              unfold ITree.succAfter
              rw [hconcatL, ITree.nextInList_append_some hnl]
              rw [ITree.find?_append_some hfq]
      · have hvk : p v = k := le_antisymm (not_lt.mp h2) (not_lt.mp h1)
        have hloop : ITree.findLoop p k (ITree.node l v r) =
            (.there_is, some v) := by
          rw [ITree.findLoop_node, if_neg h1, if_neg h2]
        simp only [ITree.find_next, hloop]
        have hfaill : ∀ x ∈ ITree.inorder l,
            (fun c => decide (k ≤ p c)) x = false := by
          intro x hx
          simp [not_le.mpr (hvk ▸ hal x hx)]
        rw [show ITree.inorder (ITree.node l v r) =
            ITree.inorder l ++ (v :: ITree.inorder r) from rfl]
        rw [ITree.find?_append_none hfaill]
        rw [List.find?_cons_of_pos _ (by simp [hvk.ge])]

theorem C8_find_next_lower_bound_witness :
    ITree.find_next (fun n : Nat => n) 3
      (.node (.node .leaf 1 .leaf) 2 (.node .leaf 5 .leaf)) = some 5 :=
  (C8_find_next_lower_bound (by decide) 3).trans (by decide)

theorem C10_remove_equiv_noop_witness :
    ITree.remove (fun n : Nat => n) 2
      (.node (.node .leaf 1 .leaf) 2 (.node .leaf 5 .leaf)) =
    some (none, .node (.node .leaf 1 .leaf) 2 (.node .leaf 5 .leaf)) :=
  C10_remove_equiv_noop (by decide) (by decide) ⟨2, by decide, rfl⟩

end BimapModel
